import Mathlib

/-!
Verification of the Brevit.js encoding pipeline (src/brevit.js, class BrevitClient).

The JavaScript value trees handled by the encoder are modelled by the inductive
type `Value` (JSON-like: null, booleans, numbers, strings, objects with
insertion-ordered fields, arrays).  Numbers are modelled as integers; the claims
under consideration never depend on non-integer number formatting.  JavaScript
string indices are UTF-16 code units while the model counts characters; the two
agree on all inputs considered here (no astral-plane code points).

Each definition is a direct translation of the correspondingly named method of
`BrevitClient`:
  `jsString`                ~ JavaScript String(value) coercion as used by the encoder
  `escapeValue`             ~ `_escapeValue`
  `isUniformObjectArray`    ~ `_isUniformObjectArray`
  `isPrimitiveArray`        ~ `_isPrimitiveArray`
  `formatTabularArray`      ~ `_formatTabularArray`
  `formatPrimitiveArray`    ~ `_formatPrimitiveArray`
  `flatten`                 ~ `_flatten` (the by-reference output array becomes the
                              returned list of lines; pushes become appends)
  `generateAbbreviations`   ~ `_generateAbbreviations`
  `generateAbbreviation`    ~ `_generateAbbreviation` (the mutated `usedAbbrs` set
                              becomes an explicit list threaded through the result)
  `applyAbbreviations`      ~ `_applyAbbreviations`
  `flattenObject`           ~ `_flattenObject`
-/

set_option maxRecDepth 20000

/-- Model of the JavaScript values the encoder consumes. -/
inductive Value where
  | vNull
  | vBool (b : Bool)
  | vNum (n : Int)
  | vStr (s : String)
  | vObj (fields : List (String × Value))
  | vArr (elems : List Value)

/-- Tests for the JavaScript `null` value. -/
def isNull : Value → Bool
  | .vNull => true
  | _ => false

/-- Scalar test used by `_isPrimitiveArray`: in JavaScript, `typeof v === 'object'
and v !== null` holds exactly for non-null objects and arrays, so everything else
(null, booleans, numbers, strings) counts as a scalar. -/
def isScalar : Value → Bool
  | .vObj _ => false
  | .vArr _ => false
  | _ => true

/-- Tests for a plain object (not null, not an array), as in
`typeof item === 'object' and item !== null and not Array.isArray(item)`. -/
def isObjV : Value → Bool
  | .vObj _ => true
  | _ => false

/-- Key list of an object in insertion order (`Object.keys`); `[]` on non-objects. -/
def objKeysOf : Value → List String
  | .vObj fields => fields.map Prod.fst
  | _ => []

/-- Field list of an object; `[]` on non-objects. -/
def getFields : Value → List (String × Value)
  | .vObj fields => fields
  | _ => []

mutual
/-- JavaScript `String(value)` on the values the encoder renders: `null` prints
as `null`, booleans and numbers canonically, strings verbatim, plain objects as
`[object Object]`, and arrays by joining their elements with `,` where a `null`
element joins as the empty string (`Array.prototype.join` semantics). -/
def jsString : Value → String
  | .vNull => "null"
  | .vBool b => if b then "true" else "false"
  | .vNum n => toString n
  | .vStr s => s
  | .vObj _ => "[object Object]"
  | .vArr l => String.intercalate "," (jsArrParts l)
/-- Element renderings used by `jsString` on arrays. -/
def jsArrParts : List Value → List String
  | [] => []
  | v :: vs => (if isNull v then "" else jsString v) :: jsArrParts vs
end

/-- Condition of `_escapeValue`:
`str.includes(',') or str.includes('\n') or str.includes('"')`. -/
def needsQuoting (s : String) : Bool :=
  s.toList.any (fun c => c = ',' || c = '\n' || c = '\"')

/-- JavaScript `str.replace(/"/g, '\\"')`: every double quote becomes
backslash-quote. -/
def escQuotes (s : String) : String :=
  String.mk (s.toList.flatMap (fun c => if c = '\"' then ['\\', '\"'] else [c]))

/-- Translation of `_escapeValue` applied after the `String(value)` coercion its
first line performs: quote-wrap (escaping inner quotes) iff the string contains
a comma, a newline or a double quote. -/
def escapeValue (s : String) : String :=
  if needsQuoting s then "\"" ++ escQuotes s ++ "\"" else s

/-- Translation of `_isUniformObjectArray`: `none` for empty arrays and arrays
whose first element is not a plain object; otherwise every further element must
be a plain object with the same number of keys, all of which occur among the
first element's keys; on success returns the first element's keys in insertion
order. -/
def isUniformObjectArray (arr : List Value) : Option (List String) :=
  match arr with
  | [] => none
  | first :: rest =>
    match first with
    | .vObj fields =>
      let firstKeys := fields.map Prod.fst
      if rest.all (fun item =>
          match item with
          | .vObj f2 =>
            let itemKeys := f2.map Prod.fst
            firstKeys.length == itemKeys.length && itemKeys.all (fun k => firstKeys.contains k)
          | _ => false)
      then some firstKeys
      else none
    | _ => none

/-- Translation of `_isPrimitiveArray`: false on empty arrays, true iff every
element is a scalar (the source checks element 0 and then elements 1..). -/
def isPrimitiveArray (arr : List Value) : Bool :=
  match arr with
  | [] => false
  | first :: rest => isScalar first && rest.all isScalar

/-- Model of `item[key] ?? 'null'`: the field's value if present and non-null,
else the JavaScript string `'null'` (a missing key reads as `undefined`, which
`??` also replaces). -/
def coalesced (fields : List (String × Value)) (k : String) : Value :=
  match fields.find? (fun p => p.1 == k) with
  | some p => if isNull p.2 then .vStr "null" else p.2
  | none => .vStr "null"

/-- Cell of a tabular row: `_escapeValue(item[key] ?? 'null')`. -/
def tabularCell (item : Value) (k : String) : String :=
  escapeValue (jsString (coalesced (getFields item) k))

/-- Row of a tabular block: the element's cells for `keys`, joined by `,`. -/
def tabularRow (keys : List String) (item : Value) : String :=
  String.intercalate "," (keys.map (tabularCell item))

/-- Translation of `_formatTabularArray`.  The source destructures the result of
`_isUniformObjectArray` (and would throw on `null`); it is only invoked after
the check succeeded, so the `none` branch is unreachable. -/
def formatTabularArray (arr : List Value) (pfx : String) : String :=
  match isUniformObjectArray arr with
  | some keys =>
    (pfx ++ "[" ++ Nat.repr arr.length ++ "]\x7b" ++ String.intercalate "," keys ++ "\x7d:")
      ++ "\n" ++ String.intercalate "\n" (arr.map (tabularRow keys))
  | none => ""

/-- Translation of `_formatPrimitiveArray`. -/
def formatPrimitiveArray (arr : List Value) (pfx : String) : String :=
  pfx ++ "[" ++ Nat.repr arr.length ++ "]:"
    ++ String.intercalate "," (arr.map (fun v => escapeValue (jsString v)))

mutual
/-- Translation of `_flatten`: objects recurse per field with a dotted prefix,
arrays are dispatched on the two classifiers with a per-index fallback, scalars
emit a single `path:value` line (with the sentinel `value` at the empty root
prefix). -/
def flatten : Value → String → List String
  | .vObj fields, pfx => flattenFields fields pfx
  | .vArr elems, pfx =>
    match isUniformObjectArray elems with
    | some _ => [formatTabularArray elems pfx]
    | none =>
      if isPrimitiveArray elems then [formatPrimitiveArray elems pfx]
      else flattenElems elems pfx 0
  | v, pfx => [(if pfx = "" then "value" else pfx) ++ ":" ++ jsString v]

/-- Object branch of `_flatten`: `Object.entries(node).forEach(...)`. -/
def flattenFields : List (String × Value) → String → List String
  | [], _ => []
  | (k, v) :: rest, pfx =>
      flatten v (if pfx = "" then k else pfx ++ "." ++ k) ++ flattenFields rest pfx

/-- Mixed-array branch of `_flatten`: `node.forEach((item, index) => ...)` with
prefix `pfx[index]`. -/
def flattenElems : List Value → String → Nat → List String
  | [], _, _ => []
  | v :: rest, pfx, i =>
      flatten v (pfx ++ "[" ++ Nat.repr i ++ "]") ++ flattenElems rest pfx (i + 1)
end

/-- Auxiliary character-level split: `splitChars sep cs` groups `cs` at every
occurrence of `sep`, matching `String.prototype.split` with a one-character
separator (the empty string splits to `[""]`). -/
def splitChars (sep : Char) : List Char → List (List Char)
  | [] => [[]]
  | c :: cs =>
    let r := splitChars sep cs
    if c = sep then [] :: r
    else
      match r with
      | [] => [[c]]
      | g :: gs => (c :: g) :: gs

/-- JavaScript `s.split(sep)` for a one-character separator. -/
def jsSplit (s : String) (sep : Char) : List String :=
  (splitChars sep s.toList).map String.mk

/-- JavaScript `s.substring(0, n)` (character-counted). -/
def strTake (s : String) (n : Nat) : String :=
  String.mk (s.toList.take n)

/-- JavaScript `s.substring(n)` (character-counted). -/
def strDrop (s : String) (n : Nat) : String :=
  String.mk (s.toList.drop n)

/-- JavaScript `s.indexOf(c)`: the first index of `c`, or `-1`. -/
def jsIndexOf (s : String) (c : Char) : Int :=
  match s.toList.findIdx? (fun d => d = c) with
  | some i => Int.ofNat i
  | none => -1

/-- Boolean prefix test on character lists (first argument is the whole string,
second the candidate prefix). -/
def listStartsWith : List Char → List Char → Bool
  | _, [] => true
  | [], _ :: _ => false
  | c :: cs, d :: ds => (c == d) && listStartsWith cs ds

/-- JavaScript `s.startsWith(pre)`. -/
def strStartsWith (s pre : String) : Bool :=
  listStartsWith s.toList pre.toList

/-- One `prefixCounts.set(prefix, (prefixCounts.get(prefix) ?? 0) + 1)` step on
the insertion-ordered association list modelling the Map. -/
def bumpCount : List (String × Nat) → String → List (String × Nat)
  | [], k => [(k, 1)]
  | (k', c) :: rest, k => if k' = k then (k', c + 1) :: rest else (k', c) :: bumpCount rest k

/-- Strict dotted prefixes of a path, as collected by `_generateAbbreviations`:
`parts.slice(0, i).join('.')` for `i = 1 .. parts.length - 1`. -/
def pfxListOf (path : String) : List String :=
  let parts := jsSplit path '.'
  (List.range (parts.length - 1)).map (fun i => String.intercalate "." (parts.take (i + 1)))

/-- Occurrence counts of all strict dotted prefixes across all paths, in first
insertion order (JavaScript Map iteration order). -/
def pfxCounts (paths : List String) : List (String × Nat) :=
  paths.foldl (fun m path => (pfxListOf path).foldl bumpCount m) []

/-- Comparator of `_generateAbbreviations` as a total preorder: `a` may stay
before `b` iff `a` has a larger count, or equal counts and `a` is at most as
long (`(a, b) => b[1] - a[1] || a[0].length - b[0].length`). -/
def candLe (a b : String × Nat) : Bool :=
  Nat.blt b.2 a.2 || (Nat.beq a.2 b.2 && Nat.ble a.1.length b.1.length)

/-- Stable insertion of a candidate after every already-placed candidate that
may stay before it. -/
def insertCand (x : String × Nat) : List (String × Nat) → List (String × Nat)
  | [] => [x]
  | y :: ys => if candLe y x then y :: insertCand x ys else x :: y :: ys

/-- Stable sort by `candLe` (count descending, then length ascending, ties in
original order), modelling the ECMAScript stable `Array.prototype.sort`. -/
def sortCandidates (l : List (String × Nat)) : List (String × Nat) :=
  l.foldl (fun acc x => insertCand x acc) []

/-- Fuelled form of the `do ... while (num >= 0)` loop of strategy 3 in
`_generateAbbreviation`.  Each pass prepends `fromCharCode(97 + num % 26)` and
continues with `floor(num / 26) - 1` while that is non-negative; `num + 1` units
of fuel always suffice because `num / 26 - 1 < num` once `num ≥ 26`, so the
zero-fuel branch is unreachable from `base26`. -/
def base26Go (fuel num : Nat) (acc : String) : String :=
  match fuel with
  | 0 => acc
  | fuel + 1 =>
    let acc' := String.mk [Char.ofNat (97 + num % 26)] ++ acc
    if num < 26 then acc' else base26Go fuel (num / 26 - 1) acc'

/-- Counter-based alias of strategy 3: `a`, `b`, ..., `z`, `aa`, `ab`, ... -/
def base26 (num : Nat) : String :=
  base26Go (num + 1) num ""

/-- JavaScript `prefix.split('.')[0][0].toLowerCase()`.  On an empty first
segment the source would throw a TypeError (`undefined[0]`); the model returns
`""` there, a case no emitted path produces. -/
def firstSegFirstLetter (pfx : String) : String :=
  match ((jsSplit pfx '.').headD "").toList with
  | [] => ""
  | c :: _ => String.mk [c.toLower]

/-- JavaScript `parts.map(p => p[0]).join('').toLowerCase()` (strategy 2); an
empty segment contributes nothing, as `undefined` joins as the empty string. -/
def multiLetterOf (pfx : String) : String :=
  String.mk ((((jsSplit pfx '.').map (fun p => p.toList.take 1)).flatten).map Char.toLower)

/-- Translation of `_generateAbbreviation`.  The source mutates the shared
`usedAbbrs` set in every branch before returning; the model returns the alias
together with the updated set.  Note that strategy 3 inserts its counter-derived
alias without checking membership. -/
def generateAbbreviation (pfx : String) (counter : Nat) (used : List String) :
    String × List String :=
  let firstLetter := firstSegFirstLetter pfx
  if used.contains firstLetter = false then
    (firstLetter, firstLetter :: used)
  else
    let parts := jsSplit pfx '.'
    let multi := multiLetterOf pfx
    if 1 < parts.length ∧ used.contains multi = false ∧ multi.length ≤ 3 then
      (multi, multi :: used)
    else
      let fallbackAbbr := base26 counter
      (fallbackAbbr, fallbackAbbr :: used)

/-- Result of `_generateAbbreviations`: the prefix-to-alias table in insertion
order and the `@alias=prefix` definition lines in emission order. -/
structure AbbrevResult where
  map : List (String × String)
  definitions : List String

/-- Candidate loop of `_generateAbbreviations` (`frequentPrefixes.forEach`):
state is the counter (incremented only on acceptance), the used-alias set
(grown by every `_generateAbbreviation` call), the table and the definition
lines.  Arithmetic is over `Int`, as in JavaScript, so a negative savings value
is kept negative rather than truncated. -/
def genAbbrevAux : List (String × Nat) → Nat → List String → List (String × String) →
    List String → AbbrevResult
  | [], _, _, m, defs => ⟨m, defs⟩
  | (pfx, count) :: rest, counter, used, m, defs =>
    let r := generateAbbreviation pfx counter used
    let definitionCost : Int := (pfx.length : Int) + (r.1.length : Int) + 3
    let savings : Int := ((pfx.length : Int) - (r.1.length : Int) - 1) * (count : Int)
    if definitionCost < savings then
      genAbbrevAux rest (counter + 1) r.2 (m ++ [(pfx, r.1)]) (defs ++ ["@" ++ r.1 ++ "=" ++ pfx])
    else
      genAbbrevAux rest counter r.2 m defs

/-- Translation of `_generateAbbreviations`: count dotted prefixes over all
paths, keep those meeting `abbreviationThreshold`, sort them stably by count
descending then length ascending, and run the acceptance loop. -/
def generateAbbreviations (enable : Bool) (thr : Nat) (paths : List String) : AbbrevResult :=
  if enable = false then ⟨[], []⟩
  else
    let counts := pfxCounts paths
    let frequent := sortCandidates (counts.filter (fun pc => thr ≤ pc.2))
    genAbbrevAux frequent 0 [] [] []

/-- Loop body of the best-match search in `_applyAbbreviations`: adopt the entry
iff `path.startsWith(prefix + '.')` and the entry's prefix is strictly longer
than the best so far. -/
def bestStep (path : String) (best pa : String × String) : String × String :=
  if strStartsWith path (pa.1 ++ ".") && Nat.blt best.1.length pa.1.length then pa else best

/-- Best-match search of `_applyAbbreviations`, starting from the empty match. -/
def findBestMatch (m : List (String × String)) (path : String) : String × String :=
  m.foldl (bestStep path) ("", "")

/-- Translation of `_applyAbbreviations`: pass through when disabled or the
table is empty or nothing matched; otherwise replace the longest matching
prefix and the following dot by `@alias.`. -/
def applyAbbreviations (enable : Bool) (m : List (String × String)) (path : String) : String :=
  if enable = false || m.isEmpty then path
  else
    let best := findBestMatch m path
    if best.1 = "" then path
    else "@" ++ best.2 ++ "." ++ strDrop path (best.1.length + 1)

/-- Path-extraction step of `_flattenObject` (lines 363-375): the part before
the first colon, further truncated at the first `[` when one occurs at a
positive index. -/
def extractPath (line : String) : String :=
  let colonIndex := jsIndexOf line ':'
  if 0 < colonIndex then
    let pathPart := strTake line colonIndex.toNat
    let bracketIndex := jsIndexOf pathPart '['
    if 0 < bracketIndex then strTake pathPart bracketIndex.toNat else pathPart
  else (jsSplit line ':').headD ""

/-- Per-line rewrite step of `_flattenObject` (lines 381-404): abbreviate the
path part before the colon, keeping any `[...]` suffix and the value part
unchanged. -/
def abbreviateLine (enable : Bool) (m : List (String × String)) (line : String) : String :=
  let colonIndex := jsIndexOf line ':'
  if colonIndex = -1 then line
  else
    let pathPart := strTake line colonIndex.toNat
    let valuePart := strDrop line colonIndex.toNat
    let bracketIndex := jsIndexOf pathPart '['
    if 0 < bracketIndex then
      applyAbbreviations enable m (strTake pathPart bracketIndex.toNat)
        ++ strDrop pathPart bracketIndex.toNat ++ valuePart
    else applyAbbreviations enable m pathPart ++ valuePart

/-- Translation of `_flattenObject`: flatten, extract paths, build the
abbreviation table, rewrite every line, and join (definition lines first when
any exist). -/
def flattenObject (enable : Bool) (thr : Nat) (obj : Value) : String :=
  let output := flatten obj ""
  let paths := output.map extractPath
  let res := generateAbbreviations enable thr paths
  let abbreviated := output.map (abbreviateLine enable res.map)
  if res.definitions.isEmpty = false then
    String.intercalate "\n" res.definitions ++ "\n" ++ String.intercalate "\n" abbreviated
  else String.intercalate "\n" abbreviated

/-- Specification-side reading of the net-savings rule of spec section 4.3 step
5, for the refinement comparison of claim C2: scanning the sorted surviving
candidates, a definition line `@alias=prefix` is produced for a candidate if
and only if `savings = (len(prefix) - len(alias) - 1) * count` strictly exceeds
`definitionCost = len(prefix) + len(alias) + 3` for the alias generated for it
at that point (aliases per section 4.3 step 4); an accepted candidate advances
the alias counter. -/
def specNetBeneficialDefinitions : List (String × Nat) → Nat → List String → List String
  | [], _, _ => []
  | (pfx, count) :: rest, counter, used =>
    let r := generateAbbreviation pfx counter used
    let savings : Int := ((pfx.length : Int) - (r.1.length : Int) - 1) * (count : Int)
    let definitionCost : Int := (pfx.length : Int) + (r.1.length : Int) + 3
    if definitionCost < savings then
      ("@" ++ r.1 ++ "=" ++ pfx) :: specNetBeneficialDefinitions rest (counter + 1) r.2
    else
      specNetBeneficialDefinitions rest counter r.2

theorem genAbbrevAux_definitions (l : List (String × Nat)) :
    ∀ (counter : Nat) (used : List String) (m : List (String × String)) (defs : List String),
      (genAbbrevAux l counter used m defs).definitions
        = defs ++ specNetBeneficialDefinitions l counter used := by
  induction l with
  | nil =>
    intro counter used m defs
    simp [genAbbrevAux, specNetBeneficialDefinitions]
  | cons hd tl ih =>
    intro counter used m defs
    obtain ⟨pfx, count⟩ := hd
    simp only [genAbbrevAux, specNetBeneficialDefinitions]
    split
    · rw [ih]
      simp
    · rw [ih]

theorem generateAbbreviation_fst_mem_snd (pfx : String) (counter : Nat) (used : List String) :
    (generateAbbreviation pfx counter used).1 ∈ (generateAbbreviation pfx counter used).2 := by
  simp only [generateAbbreviation]
  split
  · exact List.mem_cons_self _ _
  · split
    · exact List.mem_cons_self _ _
    · exact List.mem_cons_self _ _

theorem foldl_bestStep_eq_init_or (path : String) (l : List (String × String)) :
    ∀ init : String × String,
      l.foldl (bestStep path) init = init ∨
        (l.foldl (bestStep path) init ∈ l ∧
          strStartsWith path ((l.foldl (bestStep path) init).1 ++ ".") = true) := by
  induction l with
  | nil =>
    intro init
    left
    rfl
  | cons pa tl ih =>
    intro init
    rw [List.foldl_cons]
    rcases ih (bestStep path init pa) with h | ⟨hmem, hsw⟩
    · rw [h]
      unfold bestStep
      split
      · next hc =>
        rw [Bool.and_eq_true] at hc
        exact Or.inr ⟨List.mem_cons_self _ _, hc.1⟩
      · exact Or.inl rfl
    · exact Or.inr ⟨List.mem_cons_of_mem _ hmem, hsw⟩

theorem foldl_bestStep_init_le (path : String) (l : List (String × String)) :
    ∀ init : String × String, init.1.length ≤ (l.foldl (bestStep path) init).1.length := by
  induction l with
  | nil =>
    intro init
    exact Nat.le_refl _
  | cons pa tl ih =>
    intro init
    rw [List.foldl_cons]
    refine Nat.le_trans ?_ (ih (bestStep path init pa))
    unfold bestStep
    split
    · next hc =>
      rw [Bool.and_eq_true] at hc
      have h2 := hc.2
      simp only [Nat.blt_eq] at h2
      exact Nat.le_of_lt h2
    · exact Nat.le_refl _

theorem foldl_bestStep_le_of_match (path : String) (l : List (String × String)) :
    ∀ (init : String × String) (pa : String × String), pa ∈ l →
      strStartsWith path (pa.1 ++ ".") = true →
      pa.1.length ≤ (l.foldl (bestStep path) init).1.length := by
  induction l with
  | nil =>
    intro init pa h _
    exact absurd h (List.not_mem_nil _)
  | cons qa tl ih =>
    intro init pa hmem hsw
    rw [List.foldl_cons]
    rcases List.mem_cons.mp hmem with heq | hmem'
    · subst heq
      refine Nat.le_trans ?_ (foldl_bestStep_init_le path tl (bestStep path init pa))
      unfold bestStep
      split
      · exact Nat.le_refl _
      · next hc =>
        rw [hsw, Bool.true_and, Nat.blt_eq] at hc
        exact Nat.le_of_not_lt hc
    · exact ih (bestStep path init qa) pa hmem' hsw

theorem flattenElems_eq_enumFrom (l : List Value) :
    ∀ (pfx : String) (i : Nat),
      flattenElems l pfx i
        = (List.enumFrom i l).flatMap
            (fun iv => flatten iv.2 (pfx ++ "[" ++ Nat.repr iv.1 ++ "]")) := by
  induction l with
  | nil =>
    intro pfx i
    rfl
  | cons v tl ih =>
    intro pfx i
    simp only [flattenElems, List.enumFrom, List.flatMap_cons]
    rw [ih]

theorem tabularCell_null (fields : List (String × Value)) (k : String)
    (h : ∀ p, fields.find? (fun q => q.1 == k) = some p → isNull p.2 = true) :
    tabularCell (.vObj fields) k = "null" := by
  simp only [tabularCell, getFields, coalesced]
  cases hf : fields.find? (fun q => q.1 == k) with
  | none =>
    decide
  | some p =>
    have hp := h p hf
    show escapeValue (jsString (if isNull p.2 = true then Value.vStr "null" else p.2)) = "null"
    rw [if_pos hp]
    decide

theorem isUniform_of_uniform (fields : List (String × Value)) (rest : List Value)
    (hobj : ∀ item ∈ rest, isObjV item = true)
    (hlen : ∀ item ∈ rest, (objKeysOf item).length = (fields.map Prod.fst).length)
    (hsub : ∀ item ∈ rest, ∀ k ∈ objKeysOf item, k ∈ fields.map Prod.fst) :
    isUniformObjectArray (.vObj fields :: rest) = some (fields.map Prod.fst) := by
  simp only [isUniformObjectArray]
  rw [if_pos]
  rw [List.all_eq_true]
  intro item hmem
  have h1 := hobj item hmem
  cases item with
  | vObj f2 =>
    rw [Bool.and_eq_true]
    constructor
    · have h2 := hlen _ hmem
      simp only [objKeysOf] at h2
      simp [h2]
    · rw [List.all_eq_true]
      intro k hk
      have h3 := hsub _ hmem k (by simpa [objKeysOf] using hk)
      simpa using h3
  | vNull => simp [isObjV] at h1
  | vBool b => simp [isObjV] at h1
  | vNum n => simp [isObjV] at h1
  | vStr s => simp [isObjV] at h1
  | vArr l => simp [isObjV] at h1

theorem isUniform_none_of_scalar_head (v : Value) (rest : List Value)
    (h : isScalar v = true) :
    isUniformObjectArray (v :: rest) = none := by
  cases v with
  | vObj f => simp [isScalar] at h
  | vNull => rfl
  | vBool b => rfl
  | vNum n => rfl
  | vStr s => rfl
  | vArr l => rfl

theorem isPrimitive_of_all_scalar (v : Value) (rest : List Value)
    (h : ∀ w ∈ v :: rest, isScalar w = true) :
    isPrimitiveArray (v :: rest) = true := by
  simp only [isPrimitiveArray, Bool.and_eq_true]
  exact ⟨h v (List.mem_cons_self _ _),
    List.all_eq_true.mpr (fun w hw => h w (List.mem_cons_of_mem _ hw))⟩

theorem needsQuoting_iff (s : String) :
    needsQuoting s = true ↔ (',' ∈ s.toList ∨ '\n' ∈ s.toList ∨ '\"' ∈ s.toList) := by
  simp only [needsQuoting, List.any_eq_true]
  constructor
  · rintro ⟨c, hc, hq⟩
    simp only [Bool.or_eq_true, decide_eq_true_eq] at hq
    rcases hq with (h | h) | h
    · exact Or.inl (h ▸ hc)
    · exact Or.inr (Or.inl (h ▸ hc))
    · exact Or.inr (Or.inr (h ▸ hc))
  · rintro (h | h | h)
    · exact ⟨',', h, by simp⟩
    · exact ⟨'\n', h, by simp⟩
    · exact ⟨'\"', h, by simp⟩

/-- C1: for every non-empty array whose elements are all non-null, non-array
objects with the same number of keys and the same key set as the first element
(per-element key order may differ), classification is Uniform with the first
element's key order, and the emitter emits exactly one output entry consisting
of the header `prefix[n]{keys}:` followed by one row per element, each row
being that element's values for the keys in the first element's order joined by
commas, with a null or absent value rendered as the literal `null`. -/
theorem c1_uniform_tabular (first : Value) (rest : List Value) (pfx : String)
    (hobj : ∀ item ∈ first :: rest, isObjV item = true)
    (hlen : ∀ item ∈ first :: rest, (objKeysOf item).length = (objKeysOf first).length)
    (hsub : ∀ item ∈ first :: rest, ∀ k ∈ objKeysOf item, k ∈ objKeysOf first)
    (hsup : ∀ item ∈ first :: rest, ∀ k ∈ objKeysOf first, k ∈ objKeysOf item) :
    isUniformObjectArray (first :: rest) = some (objKeysOf first)
    ∧ flatten (.vArr (first :: rest)) pfx
        = [(pfx ++ "[" ++ Nat.repr (first :: rest).length ++ "]\x7b"
            ++ String.intercalate "," (objKeysOf first) ++ "\x7d:")
            ++ "\n" ++ String.intercalate "\n"
                ((first :: rest).map (tabularRow (objKeysOf first)))]
    ∧ (∀ (gfields : List (String × Value)) (k : String),
        (∀ p, gfields.find? (fun q => q.1 == k) = some p → isNull p.2 = true) →
        tabularCell (.vObj gfields) k = "null") := by
  have hob := hobj first (List.mem_cons_self _ _)
  have hfst : ∃ fields, first = Value.vObj fields := by
    cases first with
    | vObj f => exact ⟨f, rfl⟩
    | vNull => simp [isObjV] at hob
    | vBool b => simp [isObjV] at hob
    | vNum n => simp [isObjV] at hob
    | vStr s => simp [isObjV] at hob
    | vArr l => simp [isObjV] at hob
  obtain ⟨fields, rfl⟩ := hfst
  have huni : isUniformObjectArray (Value.vObj fields :: rest)
      = some (fields.map Prod.fst) := by
    refine isUniform_of_uniform fields rest ?_ ?_ ?_
    · exact fun item h => hobj item (List.mem_cons_of_mem _ h)
    · exact fun item h => hlen item (List.mem_cons_of_mem _ h)
    · exact fun item h => hsub item (List.mem_cons_of_mem _ h)
  have hkeys : objKeysOf (Value.vObj fields) = fields.map Prod.fst := rfl
  refine ⟨by rw [hkeys]; exact huni, ?_, fun gfields k h => tabularCell_null gfields k h⟩
  simp only [flatten, huni]
  simp only [formatTabularArray, huni, hkeys]

/-- C5 counterexample: an empty array is not rendered as an empty-array literal;
the encoder emits no line at all for it.  Encoding the object with fields
`a = []` and `b = 1` yields exactly the single line `b:1`, and the flattening
of an empty array is the empty line sequence. -/
theorem c5_counterexample :
    flattenObject true 2 (.vObj [("a", .vArr []), ("b", .vNum 1)]) = "b:1"
    ∧ flatten (.vArr []) "a" = [] := by
  exact ⟨by decide, rfl⟩

/-- C5 amended: every empty array is classified Mixed (neither Uniform nor
Primitive), and the mixed fallback of the emitter iterates over its zero
elements, producing no output line for it (there is no empty-array literal
special case). -/
theorem c5_empty_array_mixed_no_line (pfx : String) :
    isUniformObjectArray [] = none
    ∧ isPrimitiveArray [] = false
    ∧ flatten (.vArr []) pfx = [] :=
  ⟨rfl, rfl, rfl⟩

/-- C6: a scalar rendered inside a comma-joined context is wrapped in double
quotes with internal double quotes backslash-escaped exactly when its string
form contains a comma, a newline or a double quote, and passes through
unchanged otherwise; a scalar rendered in the single-value `path:value` form is
emitted as the raw `String(value)` coercion with no escaping or quoting,
whatever characters it contains. -/
theorem c6_escaping_contexts (s : String) :
    ((',' ∈ s.toList ∨ '\n' ∈ s.toList ∨ '\"' ∈ s.toList) →
        escapeValue s = "\"" ++ escQuotes s ++ "\"")
    ∧ (¬(',' ∈ s.toList ∨ '\n' ∈ s.toList ∨ '\"' ∈ s.toList) → escapeValue s = s)
    ∧ ∀ (v : Value) (pfx : String), isScalar v = true →
        flatten v pfx = [(if pfx = "" then "value" else pfx) ++ ":" ++ jsString v] := by
  refine ⟨?_, ?_, ?_⟩
  · intro h
    unfold escapeValue
    rw [if_pos ((needsQuoting_iff s).mpr h)]
  · intro h
    unfold escapeValue
    rw [if_neg (fun hq => h ((needsQuoting_iff s).mp hq))]
  · intro v pfx hv
    cases v with
    | vNull => rfl
    | vBool b => rfl
    | vNum n => rfl
    | vStr str => rfl
    | vObj f => simp [isScalar] at hv
    | vArr l => simp [isScalar] at hv

/-- C6 witness: a comma-containing value is quote-wrapped by the escaper, a
plain value passes through, and a single-value line renders a comma-containing
string without any escaping. -/
theorem c6_witness :
    escapeValue "a,b" = "\"a,b\""
    ∧ escapeValue "ok" = "ok"
    ∧ flatten (.vStr "x,y") "p" = ["p:x,y"] := by
  refine ⟨((c6_escaping_contexts "a,b").1 (Or.inl (by decide))).trans (by decide),
    (c6_escaping_contexts "ok").2.1 (by decide), ?_⟩
  exact ((c6_escaping_contexts "ok").2.2 (.vStr "x,y") "p" (by decide)).trans (by decide)

/-- C7: for every non-empty array whose elements are all scalars (null counts
as a scalar; no non-null objects and no arrays), the array is classified
Primitive (and not Uniform) and the emitter emits exactly one line of the form
`prefix[n]:v1,v2,...,vn` with each value scalar-rendered and escaped. -/
theorem c7_primitive_array_line (v : Value) (rest : List Value) (pfx : String)
    (hsc : ∀ w ∈ v :: rest, isScalar w = true) :
    isUniformObjectArray (v :: rest) = none
    ∧ isPrimitiveArray (v :: rest) = true
    ∧ flatten (.vArr (v :: rest)) pfx
        = [pfx ++ "[" ++ Nat.repr (v :: rest).length ++ "]:"
            ++ String.intercalate "," ((v :: rest).map (fun w => escapeValue (jsString w)))] := by
  have h1 := isUniform_none_of_scalar_head v rest (hsc v (List.mem_cons_self _ _))
  have h2 := isPrimitive_of_all_scalar v rest hsc
  refine ⟨h1, h2, ?_⟩
  simp only [flatten, h1, h2, if_true]
  rfl

/-- C7 witness: `friends = ["ana", "luis", "sam"]` produces the single line
`friends[3]:ana,luis,sam`. -/
theorem c7_witness :
    flatten (.vArr [.vStr "ana", .vStr "luis", .vStr "sam"]) "friends"
      = ["friends[3]:ana,luis,sam"] :=
  ((c7_primitive_array_line (.vStr "ana") [.vStr "luis", .vStr "sam"] "friends"
    (by decide)).2.2).trans (by decide)

/-- C8: for every array classified Mixed (not Uniform and not Primitive), the
emitter recurses element by element with the prefix extended by `[i]`, so the
output is the concatenation of the flattenings of the elements at the indexed
prefixes, in order. -/
theorem c8_mixed_fallback (arr : List Value) (pfx : String)
    (h1 : isUniformObjectArray arr = none) (h2 : isPrimitiveArray arr = false) :
    flatten (.vArr arr) pfx
      = (List.enum arr).flatMap
          (fun iv => flatten iv.2 (pfx ++ "[" ++ Nat.repr iv.1 ++ "]")) := by
  simp only [flatten, h1, h2]
  rw [if_neg (by simp)]
  exact flattenElems_eq_enumFrom arr pfx 0

/-- C8 witness: `items = [{sku:"A-88"}, "x", {sku:"T-22"}]` produces exactly the
three lines `items[0].sku:A-88`, `items[1]:x`, `items[2].sku:T-22` in order. -/
theorem c8_witness :
    flatten (.vArr [.vObj [("sku", .vStr "A-88")], .vStr "x",
        .vObj [("sku", .vStr "T-22")]]) "items"
      = ["items[0].sku:A-88", "items[1]:x", "items[2].sku:T-22"] :=
  (c8_mixed_fallback [.vObj [("sku", .vStr "A-88")], .vStr "x",
      .vObj [("sku", .vStr "T-22")]] "items" (by decide) (by decide)).trans (by decide)

/-- C10: encoding the empty object produces the empty string: the flattening
pass emits zero lines, no abbreviation definitions are generated, and the final
join of the empty line sequence is `""`. -/
theorem c10_empty_object_empty_string (enable : Bool) (thr : Nat) :
    flatten (.vObj []) "" = []
    ∧ (generateAbbreviations enable thr []).definitions = []
    ∧ flattenObject enable thr (.vObj []) = "" := by
  refine ⟨rfl, ?_, ?_⟩
  · cases enable
    · rfl
    · rfl
  · cases enable
    · rfl
    · rfl

/-- C1 witness: `items = [{sku:"A-88",qty:1}, {qty:2,sku:"T-22"}]` (second
element's key order reversed) classifies Uniform with the first element's key
order and emits the tabular block with rows in that fixed column order. -/
theorem c1_witness :
    isUniformObjectArray [.vObj [("sku", .vStr "A-88"), ("qty", .vNum 1)],
        .vObj [("qty", .vNum 2), ("sku", .vStr "T-22")]] = some ["sku", "qty"]
    ∧ flatten (.vArr [.vObj [("sku", .vStr "A-88"), ("qty", .vNum 1)],
        .vObj [("qty", .vNum 2), ("sku", .vStr "T-22")]]) "items"
      = ["items[2]\x7bsku,qty\x7d:\nA-88,1\nT-22,2"] := by
  have h := c1_uniform_tabular (.vObj [("sku", .vStr "A-88"), ("qty", .vNum 1)])
    [.vObj [("qty", .vNum 2), ("sku", .vStr "T-22")]] "items"
    (by decide) (by decide) (by decide) (by decide)
  exact ⟨h.1, h.2.1.trans (by decide)⟩

/-- C2: with abbreviations enabled, the emitted definition lines are exactly
those of the specification-side net-savings scan over the threshold-surviving
candidates (a candidate's definition line is emitted iff
`(len(prefix) - len(alias) - 1) * count > len(prefix) + len(alias) + 3` for the
alias generated for it); in particular, when every counted prefix occurs fewer
times than `abbreviationThreshold`, zero definition lines are emitted. -/
theorem c2_net_savings (thr : Nat) (paths : List String) :
    (generateAbbreviations true thr paths).definitions
      = specNetBeneficialDefinitions
          (sortCandidates ((pfxCounts paths).filter (fun pc => thr ≤ pc.2))) 0 []
    ∧ ((∀ pc ∈ pfxCounts paths, pc.2 < thr) →
        (generateAbbreviations true thr paths).definitions = []) := by
  constructor
  · simp only [generateAbbreviations]
    rw [if_neg (by simp)]
    rw [genAbbrevAux_definitions, List.nil_append]
  · intro h
    simp only [generateAbbreviations]
    rw [if_neg (by simp)]
    have hf : (pfxCounts paths).filter (fun pc => thr ≤ pc.2) = [] := by
      rw [List.filter_eq_nil_iff]
      intro pc hpc
      simp only [decide_eq_true_eq]
      exact Nat.not_le.mpr (h pc hpc)
    rw [hf]
    rfl

/-- C2 witness: with threshold 2 and a single path whose only candidate prefix
occurs once, no definition line is emitted. -/
theorem c2_witness : (generateAbbreviations true 2 ["a.b"]).definitions = [] :=
  (c2_net_savings 2 ["a.b"]).2 (by decide)

/-- C3 counterexample: alias tokens within one table are not pairwise distinct.
With threshold 2, the paths below give the candidates `bigsharedname` (accepted
with first-letter alias `b`) and `bigsharedother` (first letter `b` is used, the
single segment skips strategy 2, and the counter-derived fallback at counter 1
again yields `b`, inserted without any membership check), so both table entries
and both definition lines carry the same alias `b`. -/
theorem c3_counterexample :
    ((generateAbbreviations true 2
        ["bigsharedname.x", "bigsharedname.y", "bigsharedother.x", "bigsharedother.y"]).map.map
      Prod.snd) = ["b", "b"]
    ∧ (generateAbbreviations true 2
        ["bigsharedname.x", "bigsharedname.y", "bigsharedother.x", "bigsharedother.y"]).definitions
      = ["@b=bigsharedname", "@b=bigsharedother"] := by
  exact ⟨by decide, by decide⟩

/-- C3 amended: aliases returned by strategies (a) and (b) are never previously
used (both check the used set before returning), but the base-26 counter-derived
fallback of strategy (c) is inserted without a membership check; hence any alias
that collides with a previously used alias is necessarily the counter-derived
one, and pairwise distinctness of the alias tokens in one table is not
guaranteed. -/
theorem c3_fallback_only_collision (pfx : String) (counter : Nat) (used : List String)
    (h : (generateAbbreviation pfx counter used).1 ∈ used) :
    (generateAbbreviation pfx counter used).1 = base26 counter := by
  simp only [generateAbbreviation] at h ⊢
  by_cases h1 : used.contains (firstSegFirstLetter pfx) = false
  · rw [if_pos h1] at h ⊢
    have : used.contains (firstSegFirstLetter pfx) = true := by simpa using h
    rw [h1] at this
    exact absurd this (by simp)
  · rw [if_neg h1] at h ⊢
    by_cases h2 : 1 < (jsSplit pfx '.').length ∧ used.contains (multiLetterOf pfx) = false
        ∧ (multiLetterOf pfx).length ≤ 3
    · rw [if_pos h2] at h ⊢
      have : used.contains (multiLetterOf pfx) = true := by simpa using h
      rw [h2.2.1] at this
      exact absurd this (by simp)
    · rw [if_neg h2]

/-- C3 amended witness: at counter 1 with `b` already used, the candidate
`bigsharedother` receives exactly the counter-derived alias `base26 1`. -/
theorem c3_witness :
    (generateAbbreviation "bigsharedother" 1 ["b"]).1 = base26 1 :=
  c3_fallback_only_collision "bigsharedother" 1 ["b"] (by decide)

/-- C4 counterexample: a rejected candidate does consume its alias.  With
threshold 2, the candidate `bb` is processed first, is rejected by the
net-savings test (savings 0), and leaves `b` marked used; the later candidate
`bcccccccc` therefore cannot receive `b` — as the third conjunct shows, with a
fresh used set it would get `b` via strategy (a) — and instead receives the
counter-derived alias `a`. -/
theorem c4_counterexample :
    (generateAbbreviations true 2
        ["bb.x", "bb.y", "bcccccccc.x", "bcccccccc.y"]).definitions = ["@a=bcccccccc"]
    ∧ (generateAbbreviations true 2
        ["bb.x", "bb.y", "bcccccccc.x", "bcccccccc.y"]).map = [("bcccccccc", "a")]
    ∧ (generateAbbreviation "bcccccccc" 0 []).1 = "b" := by
  exact ⟨by decide, by decide, by decide⟩

/-- C4 amended: a candidate rejected by the net-savings test is not recorded
(the table, the definition lines and the acceptance counter pass to the rest of
the scan unchanged), but the alias generated for it is marked used and remains
unavailable to later candidates in the same call. -/
theorem c4_rejected_candidate_step (pfx : String) (count : Nat) (rest : List (String × Nat))
    (counter : Nat) (used : List String) (m : List (String × String)) (defs : List String)
    (hrej : ¬ ((pfx.length : Int) + ((generateAbbreviation pfx counter used).1.length : Int) + 3
        < ((pfx.length : Int) - ((generateAbbreviation pfx counter used).1.length : Int) - 1)
            * (count : Int))) :
    genAbbrevAux ((pfx, count) :: rest) counter used m defs
        = genAbbrevAux rest counter (generateAbbreviation pfx counter used).2 m defs
    ∧ (generateAbbreviation pfx counter used).1 ∈ (generateAbbreviation pfx counter used).2 := by
  constructor
  · simp only [genAbbrevAux]
    rw [if_neg hrej]
  · exact generateAbbreviation_fst_mem_snd pfx counter used

/-- C4 amended witness: rejecting `bb` (savings 0) passes the table, the
definitions and the counter on unchanged while its alias `b` is in the used
set handed to the rest of the scan. -/
theorem c4_witness :
    genAbbrevAux [("bb", 2), ("bcccccccc", 2)] 0 [] [] []
        = genAbbrevAux [("bcccccccc", 2)] 0 ["b"] [] []
    ∧ ("b" : String) ∈ ["b"] := by
  have h := c4_rejected_candidate_step "bb" 2 [("bcccccccc", 2)] 0 [] [] [] (by decide)
  exact ⟨h.1, h.2⟩

/-- C9: in the rewrite pass over a table of non-empty accepted prefixes, a line
whose path matches no prefix (via `startsWith(prefix + ".")`) passes through
unchanged, and a line with at least one matching prefix is rewritten exactly
once: a longest matching prefix is replaced by `@alias`, keeping the following
dot and the remainder of the path unchanged. -/
theorem c9_longest_match_rewrite (m : List (String × String)) (path : String)
    (hnz : ∀ pa ∈ m, 0 < pa.1.length) :
    ((∀ pa ∈ m, strStartsWith path (pa.1 ++ ".") = false) →
        applyAbbreviations true m path = path)
    ∧ (∀ pa ∈ m, strStartsWith path (pa.1 ++ ".") = true →
        ∃ q b, (q, b) ∈ m ∧ strStartsWith path (q ++ ".") = true
          ∧ (∀ r c, (r, c) ∈ m → strStartsWith path (r ++ ".") = true → r.length ≤ q.length)
          ∧ applyAbbreviations true m path = "@" ++ b ++ "." ++ strDrop path (q.length + 1)) := by
  constructor
  · intro hno
    have hb := foldl_bestStep_eq_init_or path m ("", "")
    rcases hb with hb | ⟨hmem, hsw⟩
    · cases m with
      | nil => rfl
      | cons pa tl =>
        simp only [applyAbbreviations, findBestMatch]
        rw [if_neg (by simp), if_pos (by rw [hb])]
    · rw [hno _ hmem] at hsw
      exact Bool.noConfusion hsw
  · intro pa hmem hsw
    have hle := foldl_bestStep_le_of_match path m ("", "") pa hmem hsw
    have hpos : 0 < (m.foldl (bestStep path) ("", "")).1.length :=
      Nat.lt_of_lt_of_le (hnz pa hmem) hle
    have hb := foldl_bestStep_eq_init_or path m ("", "")
    rcases hb with hb | ⟨hbmem, hbsw⟩
    · rw [hb] at hpos
      exact absurd hpos (by simp)
    · refine ⟨(m.foldl (bestStep path) ("", "")).1, (m.foldl (bestStep path) ("", "")).2,
        hbmem, hbsw, ?_, ?_⟩
      · intro r c hrc hrs
        exact foldl_bestStep_le_of_match path m ("", "") (r, c) hrc hrs
      · cases m with
        | nil => exact absurd hmem (List.not_mem_nil _)
        | cons qa tl =>
          have hne : ¬ ((qa :: tl).foldl (bestStep path) ("", "")).1 = "" := by
            intro he
            rw [he] at hpos
            exact absurd hpos (by simp)
          simp only [applyAbbreviations, findBestMatch]
          rw [if_neg (by simp), if_neg hne]

/-- C9 witness: with accepted prefixes `order` and `order.items`, the path
`order.items.sku` is rewritten using the longer match. -/
theorem c9_witness :
    ∃ q b, (q, b) ∈ [("order", "o"), ("order.items", "oi")]
      ∧ strStartsWith "order.items.sku" (q ++ ".") = true
      ∧ (∀ r c, (r, c) ∈ [("order", "o"), ("order.items", "oi")] →
          strStartsWith "order.items.sku" (r ++ ".") = true → r.length ≤ q.length)
      ∧ applyAbbreviations true [("order", "o"), ("order.items", "oi")] "order.items.sku"
          = "@" ++ b ++ "." ++ strDrop "order.items.sku" (q.length + 1) :=
  (c9_longest_match_rewrite [("order", "o"), ("order.items", "oi")] "order.items.sku"
    (by decide)).2 ("order", "o") (by decide) (by decide)
